import Mathlib

/-!
Verification of the navigation-planning core of the Mestrado-PDDL repository.

The definitions below are shallow embeddings of the Python sources:
  * `src/examples/mock_planner.py` (route solver, PDDL-problem extraction,
    output encodings), and
  * `src/planners/pddl_planner.py` (backend selection, per-step output).
Strings are modelled as Lean `String`/`List Char`; Python dictionaries that
are only read through ordered lookup are modelled as association lists.
-/

namespace MockPlanner

abbrev Loc := String

/-- The connectivity graph, as built by `parse_problem`: a mapping from an
origin location to the ordered list of its successors.  Python uses a
`defaultdict(list)`; reading a missing key yields `[]`. -/
abbrev Graph := List (Loc × List Loc)

/-- `edges.get(node, [])` of the Python code: the neighbor list of `node`,
or `[]` when `node` has no entry (dictionary lookup on the association
list). -/
def getNeighbors (edges : Graph) (node : Loc) : List Loc :=
  match edges with
  | [] => []
  | e :: es => if e.1 = node then e.2 else getNeighbors es node

/-- All locations that occur as a target of some edge.  (Not part of the
source; used only to bound the growth of the BFS visited set.) -/
def allTargets (edges : Graph) : List Loc :=
  edges.foldr (fun p acc => p.2 ++ acc) []

theorem getNeighbors_subset_allTargets (edges : Graph) (node : Loc) :
    ∀ x ∈ getNeighbors edges node, x ∈ allTargets edges := by
  induction edges with
  | nil => intro x hx; simp [getNeighbors] at hx
  | cons e es ih =>
    intro x hx
    rw [getNeighbors] at hx
    simp only [allTargets, List.foldr_cons, List.mem_append]
    by_cases h : e.1 = node
    · rw [if_pos h] at hx
      exact Or.inl hx
    · rw [if_neg h] at hx
      right
      simpa [allTargets] using ih x hx

/-- The body of the `for neighbor in edges.get(node, [])` loop of
`bfs_path` (src/examples/mock_planner.py, lines 243–257): walk the
neighbor list, skipping visited nodes, returning `path + [neighbor]` as
soon as the goal is seen, and otherwise marking the neighbor visited and
appending it (with its path) to the queue. -/
def expand (goal : Loc) (path : List Loc) :
    List Loc → List Loc → List (Loc × List Loc) →
    Option (List Loc) × List Loc × List (Loc × List Loc)
  | [], visited, queue => (none, visited, queue)
  | n :: ns, visited, queue =>
    if n ∈ visited then
      expand goal path ns visited queue
    else if n = goal then
      (some (path ++ [n]), visited, queue)
    else
      expand goal path ns (visited ++ [n]) (queue ++ [(n, path ++ [n])])

/-- Structural description of one `expand` pass: the visited set and the
queue each grow by the same batch of fresh neighbors, every one of which
was unvisited and distinct from the goal. -/
theorem expand_shape (goal : Loc) (path : List Loc) :
    ∀ ns visited queue, ∃ new : List Loc,
      (expand goal path ns visited queue).2.1 = visited ++ new ∧
      (expand goal path ns visited queue).2.2 =
        queue ++ new.map (fun n => (n, path ++ [n])) ∧
      ∀ n ∈ new, n ∈ ns ∧ n ∉ visited ∧ n ≠ goal := by
  intro ns
  induction ns with
  | nil =>
    intro visited queue
    exact ⟨[], by simp [expand], by simp [expand], by simp⟩
  | cons n ns ih =>
    intro visited queue
    by_cases hv : n ∈ visited
    · obtain ⟨new, h1, h2, h3⟩ := ih visited queue
      refine ⟨new, ?_, ?_, ?_⟩
      · rw [expand, if_pos hv]; exact h1
      · rw [expand, if_pos hv]; exact h2
      · intro m hm
        obtain ⟨hm1, hm2, hm3⟩ := h3 m hm
        exact ⟨List.mem_cons_of_mem _ hm1, hm2, hm3⟩
    · by_cases hg : n = goal
      · refine ⟨[], ?_, ?_, by simp⟩
        · rw [expand, if_neg hv, if_pos hg]; simp
        · rw [expand, if_neg hv, if_pos hg]; simp
      · obtain ⟨new, h1, h2, h3⟩ := ih (visited ++ [n]) (queue ++ [(n, path ++ [n])])
        refine ⟨n :: new, ?_, ?_, ?_⟩
        · rw [expand, if_neg hv, if_neg hg, h1]
          simp
        · rw [expand, if_neg hv, if_neg hg, h2]
          simp
        · intro m hm
          rcases List.mem_cons.mp hm with hm | hm
          · subst hm; exact ⟨List.mem_cons_self _ _, hv, hg⟩
          · obtain ⟨hm1, hm2, hm3⟩ := h3 m hm
            refine ⟨List.mem_cons_of_mem _ hm1, fun hc => hm2 ?_, hm3⟩
            exact List.mem_append_left _ hc

/-- When `expand` does not return early, every neighbor it was given ends
up in the resulting visited set. -/
theorem expand_none_visits (goal : Loc) (path : List Loc) :
    ∀ ns visited queue,
      (expand goal path ns visited queue).1 = none →
      ∀ n ∈ ns, n ∈ (expand goal path ns visited queue).2.1 := by
  intro ns
  induction ns with
  | nil => intro visited queue _ n hn; simp at hn
  | cons m ms ih =>
    intro visited queue hres n hn
    by_cases hv : m ∈ visited
    · rw [expand, if_pos hv] at hres ⊢
      rcases List.mem_cons.mp hn with hn | hn
      · obtain ⟨new, h1, _, _⟩ := expand_shape goal path ms visited queue
        rw [h1, hn]
        exact List.mem_append_left _ hv
      · exact ih visited queue hres n hn
    · by_cases hg : m = goal
      · rw [expand, if_neg hv, if_pos hg] at hres
        simp at hres
      · rw [expand, if_neg hv, if_neg hg] at hres ⊢
        rcases List.mem_cons.mp hn with hn | hn
        · obtain ⟨new, h1, _, _⟩ :=
            expand_shape goal path ms (visited ++ [m]) (queue ++ [(m, path ++ [m])])
          rw [h1, hn]
          exact List.mem_append_left _ (List.mem_append_right _ (List.mem_singleton.mpr rfl))
        · exact ih _ _ hres n hn

/-- When `expand` returns early, the returned route is `path + [goal]`,
and the goal really was an unvisited neighbor. -/
theorem expand_some (goal : Loc) (path : List Loc) :
    ∀ ns visited queue r vis' q',
      expand goal path ns visited queue = (some r, vis', q') →
      r = path ++ [goal] ∧ goal ∈ ns ∧ goal ∉ visited := by
  intro ns
  induction ns with
  | nil => intro visited queue r vis' q' h; simp [expand] at h
  | cons m ms ih =>
    intro visited queue r vis' q' h
    by_cases hv : m ∈ visited
    · rw [expand, if_pos hv] at h
      obtain ⟨h1, h2, h3⟩ := ih visited queue r vis' q' h
      exact ⟨h1, List.mem_cons_of_mem _ h2, h3⟩
    · by_cases hg : m = goal
      · rw [expand, if_neg hv, if_pos hg] at h
        simp only [Prod.mk.injEq, Option.some.injEq] at h
        obtain ⟨h1, -, -⟩ := h
        subst hg
        exact ⟨h1.symm, List.mem_cons_self _ _, hv⟩
      · rw [expand, if_neg hv, if_neg hg] at h
        obtain ⟨h1, h2, h3⟩ := ih _ _ r vis' q' h
        refine ⟨h1, List.mem_cons_of_mem _ h2, fun hc => h3 ?_⟩
        exact List.mem_append_left _ hc

/-- Number of edge targets not yet visited; the first component of the
termination measure of the BFS loop. -/
def nodeMeasure (edges : Graph) (visited : List Loc) : Nat :=
  ((allTargets edges).toFinset \ visited.toFinset).card

theorem nodeMeasure_lt (edges : Graph) (visited new : List Loc) (m : Loc)
    (hmem : m ∈ new) (hT : m ∈ allTargets edges) (hnv : m ∉ visited) :
    nodeMeasure edges (visited ++ new) < nodeMeasure edges visited := by
  apply Finset.card_lt_card
  constructor
  · intro x hx
    simp only [Finset.mem_sdiff, List.mem_toFinset] at hx ⊢
    exact ⟨hx.1, fun hc => hx.2 (List.mem_append_left _ hc)⟩
  · intro hsub
    have hm : m ∈ (allTargets edges).toFinset \ (visited ++ new).toFinset → False := by
      intro hc
      simp only [Finset.mem_sdiff, List.mem_toFinset] at hc
      exact hc.2 (List.mem_append_right _ hmem)
    apply hm
    apply hsub
    simp only [Finset.mem_sdiff, List.mem_toFinset]
    exact ⟨hT, hnv⟩

/-- The `while queue:` loop of `bfs_path` (src/examples/mock_planner.py,
lines 238–261): pop the front of the queue, expand its neighbors, return
early if the goal was found, otherwise continue with the grown visited set
and queue; return `None` once the queue is empty. -/
def bfsLoop (edges : Graph) (goal : Loc) (visited : List Loc)
    (queue : List (Loc × List Loc)) : Option (List Loc) :=
  match queue with
  | [] => none
  | (node, path) :: rest =>
    match h : expand goal path (getNeighbors edges node) visited rest with
    | (some p, _, _) => some p
    | (none, visited', queue') => bfsLoop edges goal visited' queue'
termination_by (nodeMeasure edges visited, queue.length)
decreasing_by
  obtain ⟨new, h1, h2, h3⟩ := expand_shape goal path (getNeighbors edges node) visited rest
  rw [h] at h1 h2
  simp only at h1 h2
  cases new with
  | nil =>
    simp only [List.append_nil, List.map_nil] at h1 h2
    subst h1
    subst h2
    apply Prod.Lex.right
    simp
  | cons m new' =>
    apply Prod.Lex.left
    rw [h1]
    obtain ⟨hm1, hm2, -⟩ := h3 m (List.mem_cons_self _ _)
    exact nodeMeasure_lt edges visited (m :: new') m (List.mem_cons_self _ _)
      (getNeighbors_subset_allTargets edges node m hm1) hm2

/-- `bfs_path` (src/examples/mock_planner.py, lines 203–261): returns
`[start]` immediately when `start == goal`, otherwise runs the BFS loop
with visited set `{start}` and queue `[(start, [start])]`. -/
def bfs_path (edges : Graph) (start goal : Loc) : Option (List Loc) :=
  if start = goal then some [start]
  else bfsLoop edges goal [start] [(start, [start])]

/-! ### The specification-side notion of a route

A Route in the sense of the spec: an ordered sequence of locations that
begins at `start`, ends at `goal`, and follows a directed edge of the
graph between every consecutive pair. -/

def isRoute (edges : Graph) (start goal : Loc) (p : List Loc) : Prop :=
  p.head? = some start ∧ p.getLast? = some goal ∧
    p.Chain' (fun a b => b ∈ getNeighbors edges a)

/-- Executable edge-chain check, for deciding `isRoute` on concrete
inputs. -/
def chainOkB (edges : Graph) : List Loc → Bool
  | [] => true
  | [_] => true
  | a :: b :: t => decide (b ∈ getNeighbors edges a) && chainOkB edges (b :: t)

theorem chainOkB_iff (edges : Graph) : ∀ l : List Loc,
    chainOkB edges l = true ↔
      l.Chain' (fun a b => b ∈ getNeighbors edges a) := by
  intro l
  match l with
  | [] => simp [chainOkB]
  | [a] => simp [chainOkB]
  | a :: b :: t =>
    rw [chainOkB, List.chain'_cons, Bool.and_eq_true, decide_eq_true_eq,
      chainOkB_iff edges (b :: t)]

instance (edges : Graph) (start goal : Loc) (p : List Loc) :
    Decidable (isRoute edges start goal p) :=
  decidable_of_iff (p.head? = some start ∧ p.getLast? = some goal ∧
    chainOkB edges p = true)
    (by rw [isRoute, chainOkB_iff])

theorem isRoute_ne_nil {edges : Graph} {start goal : Loc} {p : List Loc}
    (h : isRoute edges start goal p) : p ≠ [] := by
  intro hc
  subst hc
  simp [isRoute] at h

theorem isRoute_length_pos {edges : Graph} {start goal : Loc} {p : List Loc}
    (h : isRoute edges start goal p) : 1 ≤ p.length := by
  have := isRoute_ne_nil h
  cases p with
  | nil => simp at this
  | cons a l => simp

theorem isRoute_refl (edges : Graph) (x : Loc) : isRoute edges x x [x] :=
  ⟨rfl, rfl, List.chain'_singleton x⟩

theorem isRoute_singleton {edges : Graph} {start goal x : Loc}
    (h : isRoute edges start goal [x]) : start = x ∧ goal = x := by
  obtain ⟨h1, h2, -⟩ := h
  simp only [List.head?_cons, Option.some.injEq] at h1
  simp only [List.getLast?_singleton, Option.some.injEq] at h2
  exact ⟨h1.symm, h2.symm⟩

/-- Extending a route by one extra edge at the end. -/
theorem isRoute_snoc {edges : Graph} {start w u : Loc} {p : List Loc}
    (h : isRoute edges start w p) (hu : u ∈ getNeighbors edges w) :
    isRoute edges start u (p ++ [u]) := by
  obtain ⟨h1, h2, h3⟩ := h
  refine ⟨?_, ?_, ?_⟩
  · rw [List.head?_append_of_ne_nil _ (isRoute_ne_nil ⟨h1, h2, h3⟩)]
    exact h1
  · rw [List.getLast?_append_cons]
    rfl
  · refine h3.append (List.chain'_singleton u) ?_
    intro x hx y hy
    simp only [List.head?_cons, Option.mem_def, Option.some.injEq] at hy
    rw [h2] at hx
    simp only [Option.mem_def, Option.some.injEq] at hx
    subst hx
    subst hy
    exact hu

/-- Peeling the last node off a route with at least two nodes. -/
theorem isRoute_snoc_inv {edges : Graph} {start goal : Loc} {q : List Loc}
    (h : isRoute edges start goal q) (hlen : 2 ≤ q.length) :
    ∃ w, isRoute edges start w q.dropLast ∧ goal ∈ getNeighbors edges w ∧
      q.dropLast.length = q.length - 1 := by
  obtain ⟨h1, h2, h3⟩ := h
  have hne : q ≠ [] := by intro hc; subst hc; simp at h1
  have hsplit : q = q.dropLast ++ [q.getLast hne] := (List.dropLast_append_getLast hne).symm
  have hdrop_ne : q.dropLast ≠ [] := by
    intro hc
    rw [hc] at hsplit
    rw [hsplit] at hlen
    simp at hlen
  have hlast : q.getLast hne = goal := by
    have := List.getLast?_eq_getLast q hne
    rw [h2] at this
    exact (Option.some.injEq _ _ ▸ this).symm
  have hw : q.dropLast.getLast? = some (q.dropLast.getLast hdrop_ne) :=
    List.getLast?_eq_getLast _ hdrop_ne
  refine ⟨q.dropLast.getLast hdrop_ne, ⟨?_, hw, ?_⟩, ?_, ?_⟩
  · rw [hsplit] at h1
    rw [List.head?_append_of_ne_nil _ hdrop_ne] at h1
    exact h1
  · rw [hsplit] at h3
    exact h3.left_of_append
  · rw [hsplit] at h3
    have hrel := (List.chain'_append.mp h3).2.2
    apply hrel (q.dropLast.getLast hdrop_ne) _ goal
    · simp [hlast]
    · rw [hw]
      simp
  · simp [List.length_dropLast]

/-- A suffix of a route, starting at an interior node, is again a route. -/
theorem isRoute_suffix {edges : Graph} {v g x : Loc} {s t : List Loc}
    (h : isRoute edges v g (v :: (s ++ x :: t))) :
    isRoute edges x g (x :: t) := by
  obtain ⟨-, h2, h3⟩ := h
  refine ⟨rfl, ?_, ?_⟩
  · rw [show v :: (s ++ x :: t) = (v :: s) ++ x :: t by simp] at h2
    rw [List.getLast?_append_cons] at h2
    exact h2
  · exact h3.suffix ⟨v :: s, by simp⟩

/-- A route whose nodes after the first one avoid the set `visited`. -/
def isRouteAvoiding (edges : Graph) (visited : List Loc) (v goal : Loc)
    (q : List Loc) : Prop :=
  isRoute edges v goal q ∧ ∀ x ∈ q.tail, x ∉ visited

/-- The nodes currently held in the BFS queue. -/
def queueNodes (queue : List (Loc × List Loc)) : List Loc :=
  queue.map Prod.fst

/-- Frontier-surgery lemma: given a route to the goal that avoids the old
visited set and starts at a node of `S`, and given that the visited set
grew only by nodes of `S`, some node of `S` still carries a route to the
goal avoiding the new visited set. -/
theorem avoid_step (edges : Graph) (goal : Loc) (visited vis1 S : List Loc)
    (hnew : ∀ y ∈ vis1, y ∉ visited → y ∈ S) :
    ∀ n q v, q.length ≤ n → isRoute edges v goal q →
      (∀ x ∈ q.tail, x ∉ visited) → v ∈ S →
      ∃ u ∈ S, ∃ r, isRouteAvoiding edges vis1 u goal r := by
  intro n
  induction n with
  | zero =>
    intro q v hlen hroute _ _
    have := isRoute_length_pos hroute
    omega
  | succ n ih =>
    intro q v hlen hroute havoid hvS
    by_cases hall : ∀ x ∈ q.tail, x ∉ vis1
    · exact ⟨v, hvS, q, hroute, hall⟩
    · push_neg at hall
      obtain ⟨x, hxt, hxvis⟩ := hall
      have hxS : x ∈ S := hnew x hxvis (havoid x hxt)
      have hq : q = v :: q.tail :=
        List.eq_cons_of_mem_head? (by rw [hroute.1]; rfl)
      obtain ⟨t₁, t₂, ht⟩ := List.append_of_mem hxt
      have hroute' : isRoute edges x goal (x :: t₂) := by
        apply isRoute_suffix (v := v) (s := t₁)
        rw [← ht, ← hq]
        exact hroute
      have havoid' : ∀ y ∈ (x :: t₂).tail, y ∉ visited := by
        intro y hy
        apply havoid
        rw [ht]
        simp only [List.tail_cons] at hy
        exact List.mem_append_right _ (List.mem_cons_of_mem _ hy)
      apply ih (x :: t₂) x _ hroute' havoid' hxS
      have hlq : q.length = q.tail.length + 1 := by rw [hq]; simp
      have hlt : q.tail.length = t₁.length + t₂.length + 1 := by rw [ht]; simp; omega
      simp only [List.length_cons]
      omega

/-- The loop invariant of `bfs_path`'s BFS.  `d` is the length (node
count) of the paths carried by the entries at the front of the queue.
The fields assert, in order: the start is visited, the goal is never
visited, every queue entry carries a duplicate-free route from the start
to its node through visited nodes, dequeued nodes have all their
neighbors visited, the queue carries exactly two levels of path lengths
`d` and `d + 1` (front level first and nonempty while the queue is),
every queued path is a shortest route to its node, no route reaches an
unvisited node in fewer than `d + 1` nodes, and from some queued node a
route to the goal avoiding the visited set survives (whenever the goal is
reachable at all). -/
structure BfsInv (edges : Graph) (start goal : Loc) (visited : List Loc)
    (queue : List (Loc × List Loc)) (d : Nat) : Prop where
  start_vis : start ∈ visited
  goal_not_vis : goal ∉ visited
  entries : ∀ e ∈ queue, isRoute edges start e.1 e.2 ∧ e.2.Nodup ∧
    ∀ x ∈ e.2, x ∈ visited
  closed : ∀ u ∈ visited, u ∉ queueNodes queue →
    ∀ w ∈ getNeighbors edges u, w ∈ visited
  levels : ∃ a b, queue.map (fun e => e.2.length) =
    List.replicate a d ++ List.replicate b (d + 1) ∧ (queue ≠ [] → 0 < a)
  minimal : ∀ e ∈ queue, ∀ q, isRoute edges start e.1 q → e.2.length ≤ q.length
  lower : ∀ u, u ∉ visited → ∀ q, isRoute edges start u q → d + 1 ≤ q.length
  dpos : 1 ≤ d
  reach : ∀ q, isRoute edges start goal q →
    ∃ e ∈ queue, ∃ r, isRouteAvoiding edges visited e.1 goal r

/-- One iteration of the BFS loop that does not return preserves the
invariant, with the front level index unchanged or advanced by one. -/
theorem bfsInv_step (edges : Graph) (start goal node : Loc) (path : List Loc)
    (rest : List (Loc × List Loc)) (visited vis1 : List Loc)
    (q1 : List (Loc × List Loc)) (d : Nat)
    (inv : BfsInv edges start goal visited ((node, path) :: rest) d)
    (h : expand goal path (getNeighbors edges node) visited rest =
      (none, vis1, q1)) :
    ∃ d1, BfsInv edges start goal vis1 q1 d1 := by
  obtain ⟨new, h1, h2, h3⟩ := expand_shape goal path (getNeighbors edges node) visited rest
  rw [h] at h1 h2
  simp only at h1 h2
  have hvisAll : ∀ n ∈ getNeighbors edges node, n ∈ vis1 := by
    have hnv := expand_none_visits goal path (getNeighbors edges node) visited rest
      (by rw [h])
    intro n hn
    have hx := hnv n hn
    rw [h] at hx
    exact hx
  obtain ⟨hfr_route, hfr_nodup, hfr_sub⟩ :=
    inv.entries (node, path) (List.mem_cons_self _ _)
  have hnode_last : path.getLast? = some node := hfr_route.2.1
  have hnode_mem : node ∈ path := by
    obtain ⟨hne, hg⟩ := List.mem_getLast?_eq_getLast (x := node) (by rw [hnode_last]; rfl)
    rw [hg]
    exact List.getLast_mem hne
  obtain ⟨a, b, hmap, hapos⟩ := inv.levels
  have ha : 0 < a := hapos (by simp)
  obtain ⟨aa, rfl⟩ : ∃ aa, a = aa + 1 := ⟨a - 1, by omega⟩
  rw [List.replicate_succ, List.map_cons, List.cons_append] at hmap
  have hplen : path.length = d := by
    have := congrArg List.head? hmap
    simpa using this
  have hrest_map : rest.map (fun e => e.2.length) =
      List.replicate aa d ++ List.replicate b (d + 1) := by
    have := congrArg List.tail hmap
    simpa using this
  have hmono : ∀ x ∈ visited, x ∈ vis1 := by
    intro x hx
    rw [h1]
    exact List.mem_append_left _ hx
  have hnew_mem : ∀ n ∈ new, n ∈ vis1 := by
    intro n hn
    rw [h1]
    exact List.mem_append_right _ hn
  have hgoal1 : goal ∉ vis1 := by
    rw [h1]
    intro hc
    rcases List.mem_append.mp hc with hc | hc
    · exact inv.goal_not_vis hc
    · exact (h3 goal hc).2.2 rfl
  have hnewS : ∀ y ∈ vis1, y ∉ visited → y ∈ queueNodes q1 := by
    intro y hy hynv
    rw [h1] at hy
    rcases List.mem_append.mp hy with hc | hc
    · exact absurd hc hynv
    · rw [h2, queueNodes, List.map_append]
      apply List.mem_append_right
      simp only [List.map_map, List.mem_map, Function.comp]
      exact ⟨y, hc, rfl⟩
  have hentry_new : ∀ n ∈ new, isRoute edges start n (path ++ [n]) ∧
      (path ++ [n]).Nodup ∧ ∀ x ∈ path ++ [n], x ∈ vis1 := by
    intro n hn
    obtain ⟨hn1, hn2, -⟩ := h3 n hn
    refine ⟨isRoute_snoc hfr_route hn1, ?_, ?_⟩
    · rw [List.nodup_append]
      refine ⟨hfr_nodup, List.nodup_singleton n, ?_⟩
      intro x hx hxn
      rw [List.mem_singleton.mp hxn] at hx
      exact hn2 (hfr_sub n hx)
    · intro x hx
      rcases List.mem_append.mp hx with hx | hx
      · exact hmono x (hfr_sub x hx)
      · rw [List.mem_singleton.mp hx]
        exact hnew_mem n hn
  have hentries1 : ∀ e ∈ q1, isRoute edges start e.1 e.2 ∧ e.2.Nodup ∧
      ∀ x ∈ e.2, x ∈ vis1 := by
    intro e he
    rw [h2] at he
    rcases List.mem_append.mp he with he | he
    · obtain ⟨e1, e2, e3⟩ := inv.entries e (List.mem_cons_of_mem _ he)
      exact ⟨e1, e2, fun x hx => hmono x (e3 x hx)⟩
    · simp only [List.mem_map] at he
      obtain ⟨n, hn, rfl⟩ := he
      exact hentry_new n hn
  have hminimal1 : ∀ e ∈ q1, ∀ q, isRoute edges start e.1 q →
      e.2.length ≤ q.length := by
    intro e he q hq
    rw [h2] at he
    rcases List.mem_append.mp he with he | he
    · exact inv.minimal e (List.mem_cons_of_mem _ he) q hq
    · simp only [List.mem_map] at he
      obtain ⟨n, hn, rfl⟩ := he
      simp only [List.length_append, List.length_singleton, hplen]
      exact inv.lower n (h3 n hn).2.1 q hq
  have hclosed1 : ∀ u ∈ vis1, u ∉ queueNodes q1 →
      ∀ w ∈ getNeighbors edges u, w ∈ vis1 := by
    intro u hu hunq w hw
    rw [h1] at hu
    rcases List.mem_append.mp hu with hu | hu
    · by_cases hun : u = node
      · rw [hun] at hw
        exact hvisAll w hw
      · have hu_not : u ∉ queueNodes ((node, path) :: rest) := by
          simp only [queueNodes, List.map_cons, List.mem_cons]
          push_neg
          refine ⟨hun, ?_⟩
          intro hc
          apply hunq
          rw [h2, queueNodes, List.map_append]
          exact List.mem_append_left _ hc
        exact hmono w (inv.closed u hu hu_not w hw)
    · exact absurd (hnewS u (hnew_mem u hu) (h3 u hu).2.1) hunq
  have hq1_map : q1.map (fun e => e.2.length) =
      List.replicate aa d ++ List.replicate (b + new.length) (d + 1) := by
    have hnew_map : (new.map (fun n => (n, path ++ [n]))).map
        (fun e => e.2.length) = List.replicate new.length (d + 1) := by
      rw [List.map_map]
      have hall : ∀ x ∈ new.map ((fun e => e.2.length) ∘ (fun n => (n, path ++ [n]))),
          x = d + 1 := by
        intro x hx
        simp only [List.mem_map, Function.comp] at hx
        obtain ⟨n, -, rfl⟩ := hx
        simp [hplen]
      have := List.eq_replicate_length.mpr hall
      rw [this, List.length_map]
    rw [h2, List.map_append, hrest_map, hnew_map, List.append_assoc,
      ← List.replicate_add]
  have hreach1 : ∀ q, isRoute edges start goal q →
      ∃ e ∈ q1, ∃ r, isRouteAvoiding edges vis1 e.1 goal r := by
    intro q hq
    obtain ⟨e, he, r, hr_route, hr_avoid⟩ := inv.reach q hq
    have hfin : ∀ u, u ∈ queueNodes q1 →
        (∃ r1, isRouteAvoiding edges vis1 u goal r1) →
        ∃ e1 ∈ q1, ∃ r1, isRouteAvoiding edges vis1 e1.1 goal r1 := by
      intro u huS ⟨r1, hr1⟩
      obtain ⟨e1, he1, he1u⟩ := List.mem_map.mp huS
      refine ⟨e1, he1, r1, ?_⟩
      rw [he1u]
      exact hr1
    rcases List.mem_cons.mp he with he | he
    · have hr_cons : r = e.1 :: r.tail :=
        List.eq_cons_of_mem_head? (by rw [hr_route.1]; rfl)
      cases htl : r.tail with
      | nil =>
        exfalso
        rw [htl] at hr_cons
        rw [hr_cons] at hr_route
        obtain ⟨-, hge⟩ := isRoute_singleton hr_route
        apply inv.goal_not_vis
        rw [hge, he]
        exact hfr_sub node hnode_mem
      | cons x t2 =>
        have hxnb : x ∈ getNeighbors edges node := by
          have hchain := hr_route.2.2
          rw [hr_cons, htl] at hchain
          have := (List.chain'_cons.mp hchain).1
          rw [he] at this
          exact this
        have hxnv : x ∉ visited := hr_avoid x (by rw [htl]; exact List.mem_cons_self _ _)
        have hx1 : x ∈ vis1 := hvisAll x hxnb
        have hxS : x ∈ queueNodes q1 := hnewS x hx1 hxnv
        have hroute2 : isRoute edges x goal (x :: t2) := by
          apply isRoute_suffix (v := e.1) (s := [])
          have hshape : e.1 :: ([] ++ x :: t2) = r := by
            rw [List.nil_append, ← htl, ← hr_cons]
          rw [hshape]
          exact hr_route
        have havoid2 : ∀ y ∈ (x :: t2).tail, y ∉ visited := by
          intro y hy
          apply hr_avoid
          rw [htl]
          simp only [List.tail_cons] at hy
          exact List.mem_cons_of_mem _ hy
        obtain ⟨u, huS, r1, hr1⟩ :=
          avoid_step edges goal visited vis1 (queueNodes q1) hnewS
            (x :: t2).length (x :: t2) x le_rfl hroute2 havoid2 hxS
        exact hfin u huS ⟨r1, hr1⟩
    · have heq1 : e.1 ∈ queueNodes q1 := by
        rw [h2, queueNodes, List.map_append]
        exact List.mem_append_left _ (List.mem_map_of_mem _ he)
      have havoid2 : ∀ y ∈ r.tail, y ∉ visited := hr_avoid
      obtain ⟨u, huS, r1, hr1⟩ :=
        avoid_step edges goal visited vis1 (queueNodes q1) hnewS
          r.length r e.1 le_rfl hr_route havoid2 heq1
      exact hfin u huS ⟨r1, hr1⟩
  by_cases hsp : aa = 0 ∧ q1 ≠ []
  · obtain ⟨haa0, hq1ne⟩ := hsp
    subst haa0
    rw [List.replicate_zero, List.nil_append] at hq1_map
    refine ⟨d + 1, ?_, hgoal1, hentries1, hclosed1, ?_, hminimal1, ?_, by omega, hreach1⟩
    · exact hmono start inv.start_vis
    · refine ⟨b + new.length, 0, ?_, ?_⟩
      · rw [hq1_map, List.replicate_zero, List.append_nil]
      · intro hne2
        have hlen : q1.length = b + new.length := by
          have := congrArg List.length hq1_map
          simpa using this
        have hne3 : q1.length ≠ 0 := by
          intro hc
          exact hq1ne (List.length_eq_zero.mp hc)
        omega
    · intro u hu q hq
      have hunv : u ∉ visited := fun hc => hu (hmono u hc)
      have hold : d + 1 ≤ q.length := inv.lower u hunv q hq
      by_contra hlt
      push_neg at hlt
      have hqlen : q.length = d + 1 := by omega
      have h2q : 2 ≤ q.length := by
        have := inv.dpos
        omega
      obtain ⟨w, hw_route, hw_nb, hw_len⟩ := isRoute_snoc_inv hq h2q
      have hwlen : q.dropLast.length = d := by omega
      have hw_vis : w ∈ visited := by
        by_contra hwc
        have := inv.lower w hwc q.dropLast hw_route
        omega
      by_cases hwq : w ∈ queueNodes q1
      · obtain ⟨e1, he1, he1w⟩ := List.mem_map.mp hwq
        have hlen_e1 : e1.2.length = d + 1 := by
          have hmem : e1.2.length ∈ q1.map (fun e => e.2.length) :=
            List.mem_map_of_mem _ he1
          rw [hq1_map] at hmem
          exact List.eq_of_mem_replicate hmem
        have hmin := hminimal1 e1 he1 q.dropLast (by rw [he1w]; exact hw_route)
        omega
      · exact hu (hclosed1 w (hmono w hw_vis) hwq u hw_nb)
  · refine ⟨d, ?_, hgoal1, hentries1, hclosed1, ?_, hminimal1, ?_, inv.dpos, hreach1⟩
    · exact hmono start inv.start_vis
    · refine ⟨aa, b + new.length, hq1_map, ?_⟩
      intro hne
      rcases Nat.eq_zero_or_pos aa with haa | haa
      · exact absurd ⟨haa, hne⟩ hsp
      · exact haa
    · intro u hu q hq
      exact inv.lower u (fun hc => hu (hmono u hc)) q hq

theorem bfsLoop_nil (edges : Graph) (goal : Loc) (visited : List Loc) :
    bfsLoop edges goal visited [] = none := by
  rw [bfsLoop]

theorem bfsLoop_cons_some (edges : Graph) (goal node : Loc) (path : List Loc)
    (rest : List (Loc × List Loc)) (visited : List Loc) (p fst : List Loc)
    (snd : List (Loc × List Loc))
    (hexp : expand goal path (getNeighbors edges node) visited rest =
      (some p, fst, snd)) :
    bfsLoop edges goal visited ((node, path) :: rest) = some p := by
  rw [bfsLoop]
  split
  · rename_i p2 f2 s2 h2
    rw [hexp] at h2
    simp only [Prod.mk.injEq, Option.some.injEq] at h2
    rw [h2.1]
  · rename_i v2 q2 h2
    rw [hexp] at h2
    simp at h2

theorem bfsLoop_cons_none (edges : Graph) (goal node : Loc) (path : List Loc)
    (rest : List (Loc × List Loc)) (visited vis1 : List Loc)
    (q1 : List (Loc × List Loc))
    (hexp : expand goal path (getNeighbors edges node) visited rest =
      (none, vis1, q1)) :
    bfsLoop edges goal visited ((node, path) :: rest) =
      bfsLoop edges goal vis1 q1 := by
  rw [bfsLoop]
  split
  · rename_i p2 f2 s2 h2
    rw [hexp] at h2
    simp at h2
  · rename_i v2 q2 h2
    rw [hexp] at h2
    simp only [Prod.mk.injEq] at h2
    rw [h2.2.1, h2.2.2]

/-- The invariant holds for the initial visited set and queue of
`bfs_path` (when `start ≠ goal`). -/
theorem bfsInv_init (edges : Graph) (start goal : Loc) (hne : start ≠ goal) :
    BfsInv edges start goal [start] [(start, [start])] 1 := by
  refine ⟨?_, ?_, ?_, ?_, ?_, ?_, ?_, le_rfl, ?_⟩
  · exact List.mem_singleton.mpr rfl
  · intro hc
    exact hne (List.mem_singleton.mp hc).symm
  · intro e he
    rw [List.mem_singleton.mp he]
    exact ⟨isRoute_refl edges start, List.nodup_singleton start, by simp⟩
  · intro u hu hunq
    exfalso
    apply hunq
    rw [List.mem_singleton.mp hu]
    simp [queueNodes]
  · exact ⟨1, 0, by simp, fun _ => Nat.one_pos⟩
  · intro e he q hq
    rw [List.mem_singleton.mp he]
    exact isRoute_length_pos hq
  · intro u hu q hq
    match q, hq with
    | [], hq => exact absurd rfl (isRoute_ne_nil hq)
    | [x], hq =>
      obtain ⟨hs, hg⟩ := isRoute_singleton hq
      exact absurd (List.mem_singleton.mpr (hg.trans hs.symm)) hu
    | x :: y :: t, hq => simp
  · intro q hq
    have hstart : q = start :: q.tail :=
      List.eq_cons_of_mem_head? (by rw [hq.1]; rfl)
    obtain ⟨u, huS, r, hr⟩ :=
      avoid_step edges goal [] [start] [start]
        (fun y hy _ => hy) q.length q start le_rfl hq (by simp)
        (by rw [hstart] at hq; exact List.mem_singleton.mpr rfl)
    refine ⟨(start, [start]), List.mem_singleton.mpr rfl, r, ?_⟩
    rw [List.mem_singleton.mp huS] at hr
    exact hr

/-- Full correctness of the BFS loop under the invariant: a returned
route is a duplicate-free shortest route from start to goal, and `none`
is returned only when no route exists. -/
theorem bfsLoop_spec (edges : Graph) (start goal : Loc) :
    ∀ visited queue, (∃ d, BfsInv edges start goal visited queue d) →
      (∀ r, bfsLoop edges goal visited queue = some r →
        isRoute edges start goal r ∧ r.Nodup ∧
          ∀ q, isRoute edges start goal q → r.length ≤ q.length) ∧
      (bfsLoop edges goal visited queue = none →
        ∀ q, ¬ isRoute edges start goal q) := by
  intro visited queue
  induction visited, queue using bfsLoop.induct edges goal with
  | case1 visited =>
    intro ⟨d, inv⟩
    constructor
    · intro r hr
      rw [bfsLoop_nil] at hr
      cases hr
    · intro _ q hq
      obtain ⟨e, he, -⟩ := inv.reach q hq
      simp at he
  | case2 visited node path rest p fst snd hexp =>
    intro ⟨d, inv⟩
    have hloop := bfsLoop_cons_some edges goal node path rest visited p fst snd hexp
    constructor
    · intro r hr
      rw [hloop] at hr
      obtain rfl : p = r := by
        simpa using hr
      obtain ⟨hp_eq, hp_nb, -⟩ :=
        expand_some goal path (getNeighbors edges node) visited rest p fst snd hexp
      obtain ⟨hfr_route, hfr_nodup, hfr_sub⟩ :=
        inv.entries (node, path) (List.mem_cons_self _ _)
      have hroute : isRoute edges start goal (path ++ [goal]) :=
        isRoute_snoc hfr_route hp_nb
      have hgoal_notin : goal ∉ path := fun hc => inv.goal_not_vis (hfr_sub goal hc)
      have hnodup : (path ++ [goal]).Nodup := by
        rw [List.nodup_append]
        refine ⟨hfr_nodup, List.nodup_singleton goal, ?_⟩
        intro x hx hxg
        rw [List.mem_singleton.mp hxg] at hx
        exact hgoal_notin hx
      have hplen : path.length = d := by
        obtain ⟨a, b, hmap, hapos⟩ := inv.levels
        have ha : 0 < a := hapos (by simp)
        obtain ⟨aa, rfl⟩ : ∃ aa, a = aa + 1 := ⟨a - 1, by omega⟩
        rw [List.replicate_succ, List.map_cons, List.cons_append] at hmap
        have := congrArg List.head? hmap
        simpa using this
      have hmin : ∀ q, isRoute edges start goal q → (path ++ [goal]).length ≤ q.length := by
        intro q hq
        have := inv.lower goal inv.goal_not_vis q hq
        simp only [List.length_append, List.length_singleton]
        omega
      rw [hp_eq]
      exact ⟨hroute, hnodup, hmin⟩
    · intro hnone
      rw [hloop] at hnone
      cases hnone
  | case3 visited node path rest vis1 q1 hexp ih =>
    intro ⟨d, inv⟩
    have hloop := bfsLoop_cons_none edges goal node path rest visited vis1 q1 hexp
    have hstep := bfsInv_step edges start goal node path rest visited vis1 q1 d inv hexp
    rw [hloop]
    exact ih hstep

/-- Full correctness of `bfs_path`: a returned route is a duplicate-free
shortest route from start to goal, and `none` is returned only when no
route exists. -/
theorem bfs_path_spec (edges : Graph) (start goal : Loc) :
    (∀ r, bfs_path edges start goal = some r →
      isRoute edges start goal r ∧ r.Nodup ∧
        ∀ q, isRoute edges start goal q → r.length ≤ q.length) ∧
    (bfs_path edges start goal = none → ∀ q, ¬ isRoute edges start goal q) := by
  by_cases h : start = goal
  · subst h
    rw [bfs_path, if_pos rfl]
    constructor
    · intro r hr
      obtain rfl : [start] = r := by simpa using hr
      exact ⟨isRoute_refl edges start, List.nodup_singleton start,
        fun q hq => isRoute_length_pos hq⟩
    · intro hc
      cases hc
  · rw [bfs_path, if_neg h]
    exact bfsLoop_spec edges start goal [start] [(start, [start])]
      ⟨1, bfsInv_init edges start goal h⟩

/-- `bfs_path` finds a route whenever one exists. -/
theorem bfs_path_complete (edges : Graph) (start goal : Loc)
    (h : ∃ q, isRoute edges start goal q) :
    ∃ r, bfs_path edges start goal = some r := by
  obtain ⟨q, hq⟩ := h
  cases hres : bfs_path edges start goal with
  | none => exact absurd hq ((bfs_path_spec edges start goal).2 hres q)
  | some r => exact ⟨r, rfl⟩

/-! ### Output encodings of the mock planner (`main`, lines 302–370) -/

/-- Ordered dictionary lookup (Python `k in d` / `d[k]`). -/
def dictLookup (m : List (String × String)) (k : String) : Option String :=
  match m with
  | [] => none
  | p :: rest => if p.1 = k then some p.2 else dictLookup rest k

/-- `humanize_location` (src/examples/mock_planner.py, lines 264–299):
custom override first, otherwise every underscore becomes a space. -/
def humanize_location (name : String) (custom_map : List (String × String)) :
    String :=
  match dictLookup custom_map name with
  | some v => v
  | none => String.mk (name.data.map (fun c => if c = '_' then ' ' else c))

/-- The curated override table `pretty_map` of `main`
(src/examples/mock_planner.py, lines 332–340). -/
def pretty_map : List (String × String) :=
  [("farmacia", "farmácia"),
   ("recepcao", "recepção"),
   ("corredor_central", "corredor central"),
   ("corredor_ala_1", "corredor ala 1"),
   ("corredor_ala_2", "corredor ala 2"),
   ("corredor_ala_3", "corredor ala 3"),
   ("sala_cirurgia", "sala de cirurgia")]

/-- The default output of `main` (lines 367–370): one
`(navigate <robot> <a> <b>)` line per consecutive pair of the route. -/
def planLines (robot : String) (path : List Loc) : List String :=
  (path.zip path.tail).map (fun ab =>
    "(navigate " ++ robot ++ " " ++ ab.1 ++ " " ++ ab.2 ++ ")")

/-- The compact API payload of `main` (lines 344–349). -/
structure CompactPayload where
  task : String
  destination : String
  destination_label : String
deriving DecidableEq

/-- The verbose API payload of `main` (lines 351–366). -/
structure VerbosePayload where
  intent : String
  destination : String
  destination_label : String
  task : String
  waypoints : List String
  waypoint_labels : List String
  priority : String
  constraints : List String
  eta_seconds : Int
deriving DecidableEq

/-- What `main` prints, as a symbolic value. -/
inductive MockOutput where
  | plan (lines : List String)
  | apiCompact (p : CompactPayload)
  | apiVerbose (p : VerbosePayload)
  | apiNoPath (goal : String)
  | noSolutionMsg
deriving DecidableEq

/-- The output dispatch of `main` (src/examples/mock_planner.py,
lines 302–370), after the problem file has been parsed into
`(robot, start, goal, edges)`.  `args` are the command-line arguments
after the problem file (`sys.argv[2:]`). -/
def mock_main (args : List String) (robot start goal : Loc) (edges : Graph) :
    MockOutput :=
  let api_mode := args.any (fun a => a = "--api")
  let verbose_api := args.any (fun a => a = "--verbose-api")
  match bfs_path edges start goal with
  | none =>
    if api_mode then .apiNoPath goal else .noSolutionMsg
  | some path =>
    if api_mode then
      let human_dest := humanize_location goal pretty_map
      if !verbose_api then
        .apiCompact ⟨"navigate", goal, human_dest⟩
      else
        let hops : Int := max 0 ((path.length : Int) - 1)
        let eta_seconds := hops * 30
        let human_waypoints := path.map (fun w => humanize_location w pretty_map)
        .apiVerbose ⟨"NAVIGATE", goal, human_dest, "navigate", path,
          human_waypoints, "normal", [], eta_seconds⟩
    else
      .plan (planLines robot path)

/-! ### The objects stage of `parse_problem` (lines 122–164)

`parse_problem` reads the file, strips comments, extracts the
`(:objects ...)` block with the regex `\(:objects([\s\S]*?)\)`
(case-insensitive, lazy up to the first closing parenthesis), parses
each of its lines against `^(.*?)\s-\s(\w+)$`, sorts the declared names
into robots and locations by their type tag, and uses the first
robot-tagged name, raising a `ValueError` when there is none.  The
regex patterns are modelled character by character. -/

/-- Python's whitespace class (`str.strip`, `str.split`, regex `\s`). -/
def isSpaceChar (c : Char) : Bool :=
  c == ' ' || c == '\t' || c == '\n' || c == '\r' || c == '\x0b' || c == '\x0c'

/-- Regex `\w`: word characters. -/
def isWordChar (c : Char) : Bool :=
  c.isAlphanum || c == '_'

/-- Python `str.strip()` on a character list. -/
def pyStripList (s : List Char) : List Char :=
  ((s.dropWhile isSpaceChar).reverse.dropWhile isSpaceChar).reverse

/-- Splitting a character list at every newline (Python `splitlines` /
`"\n".join` round-trip for newline-separated text). -/
def splitOnNl : List Char → List (List Char)
  | [] => [[]]
  | c :: rest =>
    if c = '\n' then [] :: splitOnNl rest
    else
      match splitOnNl rest with
      | [] => [[c]]
      | l :: ls => (c :: l) :: ls

/-- `"\n".join(lines)`. -/
def joinNl : List (List Char) → List Char
  | [] => []
  | [l] => l
  | l :: ls => l ++ '\n' :: joinNl ls

/-- Helper for `pySplitWs`: the first argument is the reversed current
word. -/
def pySplitWsAux : List Char → List Char → List (List Char)
  | acc, [] => if acc.isEmpty then [] else [acc.reverse]
  | acc, c :: rest =>
    if isSpaceChar c then
      if acc.isEmpty then pySplitWsAux [] rest
      else acc.reverse :: pySplitWsAux [] rest
    else pySplitWsAux (c :: acc) rest

/-- Python `str.split()` (split on runs of whitespace, no empty parts). -/
def pySplitWs (s : List Char) : List (List Char) :=
  pySplitWsAux [] s

/-- `strip_comments` (src/examples/mock_planner.py, lines 66–92): drop
every line whose stripped form starts with `;;` or `;`. -/
def strip_comments (text : String) : String :=
  String.mk (joinNl ((splitOnNl text.data).filter (fun line =>
    let s := pyStripList line
    !(";;".data.isPrefixOf s || ";".data.isPrefixOf s))))

/-- Case-insensitive prefix test (regex literal under `re.IGNORECASE`). -/
def startsWithCI : List Char → List Char → Bool
  | [], _ => true
  | _ :: _, [] => false
  | p :: ps, c :: cs => p.toLower == c.toLower && startsWithCI ps cs

/-- The lazy group `([\s\S]*?)\)`: everything up to the first `)`. -/
def takeUntilRParen : List Char → Option (List Char)
  | [] => none
  | c :: rest =>
    if c = ')' then some []
    else (takeUntilRParen rest).map (fun l => c :: l)

/-- `re.search(r"\(:objects([\s\S]*?)\)", content, re.IGNORECASE)`:
leftmost occurrence of `(:objects`, then the lazy group up to the first
closing parenthesis. -/
def findObjectsBlock : List Char → Option (List Char)
  | [] => none
  | c :: rest =>
    if startsWithCI "(:objects".data (c :: rest) then
      match takeUntilRParen ((c :: rest).drop 9) with
      | some blk => some blk
      | none => findObjectsBlock rest
    else findObjectsBlock rest

/-- `re.search(r"^(.*?)\s-\s(\w+)$", line)`: the lazy prefix group, a
whitespace / dash / whitespace separator, and a trailing word-character
group.  Returns `(names_part, type_name)`. -/
def matchTypedLine : List Char → Option (List Char × List Char)
  | [] => none
  | c :: rest =>
    match c :: rest with
    | a :: '-' :: b :: tl =>
      if isSpaceChar a && isSpaceChar b && !tl.isEmpty && tl.all isWordChar then
        some ([], tl)
      else
        (matchTypedLine rest).map (fun pr => (c :: pr.1, pr.2))
    | _ => (matchTypedLine rest).map (fun pr => (c :: pr.1, pr.2))

/-- Accumulated robot and location names, in declaration order. -/
structure ObjectsParse where
  robot_names : List String
  locations : List String
deriving DecidableEq

/-- One iteration of the objects-block line loop
(src/examples/mock_planner.py, lines 142–159). -/
def parseObjectsLine (acc : ObjectsParse) (line : List Char) : ObjectsParse :=
  let l := pyStripList line
  if l.isEmpty || ";".data.isPrefixOf l then acc
  else
    match matchTypedLine l with
    | none => acc
    | some pr =>
      let names := ((pySplitWs (pyStripList pr.1)).filter
        (fun n => !n.isEmpty)).map String.mk
      let tn := pr.2.map Char.toLower
      if tn = "robo".data then ⟨acc.robot_names ++ names, acc.locations⟩
      else if tn = "local".data then ⟨acc.robot_names, acc.locations ++ names⟩
      else acc

/-- The robot/location classification of an objects block. -/
def parseObjectsBlock (block : List Char) : ObjectsParse :=
  (splitOnNl block).foldl parseObjectsLine ⟨[], []⟩

/-- The robot-selecting stage of `parse_problem`
(src/examples/mock_planner.py, lines 122–164): strip comments, find the
objects block, parse it, and pick the first robot-tagged name — or fail
exactly as the Python `ValueError`s do.  The later stages of
`parse_problem` (initial position, edges, goal) neither change the
chosen robot nor recover from these errors. -/
def parse_problem_robot (text : String) : Except String String :=
  let content := strip_comments text
  match findObjectsBlock content.data with
  | none => .error "Bloco :objects não encontrado no arquivo PDDL"
  | some blk =>
    let p := parseObjectsBlock blk
    match p.robot_names with
    | [] => .error "Nenhum robô declarado no bloco :objects"
    | r :: _ => .ok r

end MockPlanner

namespace PDDLWrapper

/-!
Embedding of the backend-selection and per-step-output logic of
`src/planners/pddl_planner.py`.  The environment probes
(`_check_fast_downward`, library imports) are abstracted as the three
booleans handed to `detect_available_planners`; everything downstream of
the probes is modelled faithfully.
-/

/-- `PDDLPlanner._detect_available_planners` (lines 43–65): starting
from an empty list, append each backend name whose probe succeeded, in
the fixed order fast-downward, unified-planning, pyperplan. -/
def detect_available_planners (fd up pp : Bool) : List String :=
  (if fd then ["fast-downward"] else []) ++
    (if up then ["unified-planning"] else []) ++
    (if pp then ["pyperplan"] else [])

/-- `PDDLPlanner._select_best_planner` (lines 118–131): error when
nothing is available, otherwise the first entry of the preference list
that is available, defaulting to the first available planner. -/
def select_best_planner (available : List String) : Except String String :=
  match available with
  | [] =>
    .error ("No PDDL planner available. Please install one of: " ++
      "Fast Downward, unified-planning, or pyperplan")
  | a :: rest =>
    match ["fast-downward", "unified-planning", "pyperplan"].find?
        (fun preferred => (a :: rest).contains preferred) with
    | some preferred => .ok preferred
    | none => .ok a

/-- The backend-selection part of `PDDLPlanner.__init__` (lines 25–41):
`"auto"` delegates to `_select_best_planner`; a specific request that is
not among the available planners raises; otherwise the request is kept. -/
def planner_init (planner_type : String) (available : List String) :
    Except String String :=
  if planner_type = "auto" then select_best_planner available
  else if planner_type ∉ available then
    .error ("Planner '" ++ planner_type ++ "' not available. Available: " ++
      String.intercalate ", " available)
  else .ok planner_type

open MockPlanner in
/-- Python `s.strip('()')`: remove leading and trailing parentheses. -/
def pyStripParens (s : List Char) : List Char :=
  ((s.dropWhile (fun c => c == '(' || c == ')')).reverse.dropWhile
    (fun c => c == '(' || c == ')')).reverse

open MockPlanner in
/-- One pass of the `while s.startswith('(') and s.endswith(')')` loop of
`_extract_dest` (src/planners/pddl_planner.py, lines 495–503), with an
explicit iteration bound.  Each continuing iteration strips at least the
two outer parentheses, so `s.length` iterations always suffice:
`unwrapParensAux_fuel` below proves the bound never runs out. -/
def unwrapParensAux : Nat → List Char → List Char
  | 0, s => s
  | fuel + 1, s =>
    if s.head? = some '(' ∧ s.getLast? = some ')' then
      let inner := pyStripList ((s.drop 1).dropLast)
      if inner.isEmpty || (inner.head? == some '(' && inner.getLast? == some ')') then
        unwrapParensAux fuel inner
      else '(' :: (inner ++ [')'])
    else s

open MockPlanner in
/-- The `while` loop of `_extract_dest`. -/
def unwrapParens (s : List Char) : List Char :=
  unwrapParensAux (s.length + 1) s

open MockPlanner in
theorem pyStripList_length_le (l : List Char) :
    (pyStripList l).length ≤ l.length := by
  unfold pyStripList
  simp only [List.length_reverse]
  calc ((((l.dropWhile isSpaceChar).reverse).dropWhile isSpaceChar)).length
      ≤ ((l.dropWhile isSpaceChar).reverse).length :=
        (List.dropWhile_suffix isSpaceChar).length_le
    _ = (l.dropWhile isSpaceChar).length := List.length_reverse _
    _ ≤ l.length := (List.dropWhile_suffix isSpaceChar).length_le

open MockPlanner in
/-- Any bound of at least `s.length + 1` computes the loop's true fixed
point: the result does not depend on the bound, so `unwrapParens` is the
Python `while` loop. -/
theorem unwrapParensAux_fuel :
    ∀ (f1 : Nat) (s : List Char) (f2 : Nat), s.length < f1 → s.length < f2 →
      unwrapParensAux f1 s = unwrapParensAux f2 s := by
  intro f1
  induction f1 with
  | zero => intro s f2 h1 _; omega
  | succ f ih =>
    intro s f2 h1 h2
    obtain ⟨g, rfl⟩ : ∃ g, f2 = g + 1 := ⟨f2 - 1, by omega⟩
    rw [unwrapParensAux, unwrapParensAux]
    by_cases hc : s.head? = some '(' ∧ s.getLast? = some ')'
    · rw [if_pos hc, if_pos hc]
      have hne : s ≠ [] := by
        intro hnil
        rw [hnil] at hc
        simp at hc
      have hlen : (pyStripList ((s.drop 1).dropLast)).length + 2 ≤ s.length := by
        have ha := pyStripList_length_le ((s.drop 1).dropLast)
        have hb : ((s.drop 1).dropLast).length = s.length - 1 - 1 := by
          simp [List.length_dropLast, List.length_drop]
        have hpos : 0 < s.length := List.length_pos.mpr hne
        have h1c : 1 < s.length := by
          rcases s with - | ⟨c, - | ⟨d, t⟩⟩
          · simp at hne
          · exfalso
            obtain ⟨hh, hl⟩ := hc
            simp only [List.head?_cons, Option.some.injEq] at hh
            simp only [List.getLast?_singleton, Option.some.injEq] at hl
            rw [hh] at hl
            exact absurd hl (by decide)
          · simp
        omega
      dsimp only
      split
      · apply ih
        · omega
        · omega
      · rfl
    · rw [if_neg hc, if_neg hc]

open MockPlanner in
/-- `_extract_dest` (src/planners/pddl_planner.py, lines 495–507):
strip, unwrap redundant parenthesis layers, strip parentheses, split on
whitespace, and return the fourth token when there are at least four. -/
def extract_dest (action_str : String) : Option String :=
  let s := unwrapParens (pyStripList action_str.data)
  let parts := pySplitWs (pyStripParens s)
  if 4 ≤ parts.length then (parts.get? 3).map String.mk else none

/-- The `pretty_map` of `main` in src/planners/pddl_planner.py
(lines 483–493). -/
def pddl_pretty_map : List (String × String) :=
  [("farmacia", "farmácia"),
   ("recepcao", "recepção"),
   ("corredor_central", "corredor central"),
   ("corredor_ala_1", "corredor ala 1"),
   ("corredor_ala_2", "corredor ala 2"),
   ("corredor_ala_3", "corredor ala 3"),
   ("sala_cirurgia", "sala de cirurgia"),
   ("quarto_101", "quarto 101"),
   ("quarto_102", "quarto 102")]

/-- One per-step JSON record of `main` (lines 515–520). -/
structure StepRecord where
  task : String
  destination : String
  destination_label : String
deriving DecidableEq

open MockPlanner in
/-- The default per-step output loop of `main` in
src/planners/pddl_planner.py (lines 509–520): one record per action
whose destination is extractable (Python skips the action when
`_extract_dest` returns `None` or an empty string). -/
def per_step_records (plan : List String) : List StepRecord :=
  plan.filterMap (fun act =>
    match extract_dest act with
    | none => none
    | some dest =>
      if dest = "" then none
      else some ⟨"navigate", dest,
        match dictLookup pddl_pretty_map dest with
        | some v => v
        | none => String.mk (dest.data.map (fun c => if c = '_' then ' ' else c))⟩)

end PDDLWrapper

namespace MockPlanner

/-! ### Helper lemmas about the encodings -/

theorem dictLookup_of_mem {m : List (String × String)} {k v : String}
    (hnd : (m.map Prod.fst).Nodup) (hmem : (k, v) ∈ m) :
    dictLookup m k = some v := by
  induction m with
  | nil => simp at hmem
  | cons p rest ih =>
    rw [List.map_cons, List.nodup_cons] at hnd
    rw [dictLookup]
    by_cases hk : p.1 = k
    · rw [if_pos hk]
      rcases List.mem_cons.mp hmem with hmem | hmem
      · rw [← hmem]
      · exfalso
        apply hnd.1
        rw [hk]
        exact List.mem_map_of_mem Prod.fst hmem
    · rw [if_neg hk]
      rcases List.mem_cons.mp hmem with hmem | hmem
      · exact absurd (by rw [← hmem]) hk
      · exact ih hnd.2 hmem

theorem dictLookup_of_not_mem {m : List (String × String)} {k : String}
    (h : k ∉ m.map Prod.fst) : dictLookup m k = none := by
  induction m with
  | nil => rfl
  | cons p rest ih =>
    rw [List.map_cons, List.mem_cons] at h
    push_neg at h
    rw [dictLookup, if_neg (fun hc => h.1 hc.symm)]
    exact ih h.2

theorem planLines_length (robot : String) (path : List Loc) :
    (planLines robot path).length = path.length - 1 := by
  rw [planLines, List.length_map, List.length_zip, List.length_tail]
  exact Nat.min_eq_right (Nat.sub_le _ _)

theorem planLines_get? (robot : String) :
    ∀ (path : List Loc) (i : Nat) (a b : Loc),
      path.get? i = some a → path.get? (i + 1) = some b →
      (planLines robot path).get? i =
        some ("(navigate " ++ robot ++ " " ++ a ++ " " ++ b ++ ")") := by
  intro path
  induction path with
  | nil => intro i a b ha _; simp at ha
  | cons x rest ih =>
    intro i a b ha hb
    cases rest with
    | nil =>
      exfalso
      rw [List.get?_cons_succ] at hb
      simp at hb
    | cons y t =>
      have hexp : planLines robot (x :: y :: t) =
          ("(navigate " ++ robot ++ " " ++ x ++ " " ++ y ++ ")") ::
            planLines robot (y :: t) := rfl
      cases i with
      | zero =>
        rw [List.get?_cons_zero, Option.some.injEq] at ha
        rw [List.get?_cons_succ, List.get?_cons_zero, Option.some.injEq] at hb
        rw [hexp, List.get?_cons_zero, ha, hb]
      | succ j =>
        rw [List.get?_cons_succ] at ha hb
        rw [hexp, List.get?_cons_succ]
        exact ih j a b ha hb

theorem bfs_path_some_ne_nil {edges : Graph} {start goal : Loc}
    {path : List Loc} (h : bfs_path edges start goal = some path) :
    path ≠ [] :=
  isRoute_ne_nil ((bfs_path_spec edges start goal).1 path h).1

theorem mem_any_eq_true {args : List String} {flag : String}
    (h : flag ∈ args) : (args.any fun a => decide (a = flag)) = true := by
  rw [List.any_eq_true]
  exact ⟨flag, h, by simp⟩

theorem not_mem_any_eq_false {args : List String} {flag : String}
    (h : flag ∉ args) : (args.any fun a => decide (a = flag)) = false := by
  rw [List.any_eq_false]
  intro a ha
  simp only [decide_eq_true_eq]
  intro hc
  rw [hc] at ha
  exact h ha

/-- Dispatch of `main` when `--api` was not passed and a route exists:
the plain PDDL action lines are printed. -/
theorem mock_main_plan_of_not_api (args : List String) (robot start goal : Loc)
    (edges : Graph) (path : List Loc)
    (hpath : bfs_path edges start goal = some path)
    (hapi : "--api" ∉ args) :
    mock_main args robot start goal edges = .plan (planLines robot path) := by
  rw [mock_main]
  simp only [hpath, not_mem_any_eq_false hapi]
  rfl

end MockPlanner

namespace PDDLWrapper

open MockPlanner in
/-- One step of the per-step loop: an action with a `None` or empty
destination is skipped (`if not dest: continue`), any other action
contributes exactly one record. -/
theorem per_step_records_cons (act : String) (rest : List String) :
    per_step_records (act :: rest) =
      match extract_dest act with
      | none => per_step_records rest
      | some d =>
        if d = "" then per_step_records rest
        else (⟨"navigate", d,
          match dictLookup pddl_pretty_map d with
          | some v => v
          | none =>
            String.mk (d.data.map (fun c => if c = '_' then ' ' else c))⟩ :
          StepRecord) :: per_step_records rest := by
  cases hd : extract_dest act with
  | none => simp [per_step_records, List.filterMap_cons, hd]
  | some d =>
    by_cases hne : d = ""
    · simp [per_step_records, List.filterMap_cons, hd, hne]
    · simp [per_step_records, List.filterMap_cons, hd, hne]

open MockPlanner in
/-- Full characterization of the per-step loop on arbitrary plans: the
emitted records correspond, one for one and in order, to the sublist of
actions whose destination is extractable and nonempty; every other
action is skipped, and the `j`-th record carries the destination
extracted from the `j`-th such action. -/
theorem per_step_records_filter_spec : ∀ plan : List String,
    (per_step_records plan).length =
      (plan.filter (fun act => (extract_dest act).getD "" ≠ "")).length ∧
    ∀ j act,
      (plan.filter (fun act => (extract_dest act).getD "" ≠ "")).get? j =
        some act →
      ∃ d rec, extract_dest act = some d ∧ d ≠ "" ∧
        (per_step_records plan).get? j = some rec ∧
        rec.destination = d ∧ rec.task = "navigate" := by
  intro plan
  induction plan with
  | nil => exact ⟨rfl, fun j act h => by simp at h⟩
  | cons act rest ih =>
    obtain ⟨ihlen, ihget⟩ := ih
    cases hd : extract_dest act with
    | none =>
      have hskip : per_step_records (act :: rest) = per_step_records rest := by
        rw [per_step_records_cons, hd]
      have hfil : (act :: rest).filter
            (fun a => (extract_dest a).getD "" ≠ "") =
          rest.filter (fun a => (extract_dest a).getD "" ≠ "") := by
        rw [List.filter_cons]
        simp [hd]
      rw [hskip, hfil]
      exact ⟨ihlen, ihget⟩
    | some d =>
      by_cases hne : d = ""
      · have hskip : per_step_records (act :: rest) = per_step_records rest := by
          rw [per_step_records_cons, hd]
          dsimp only
          rw [if_pos hne]
        have hfil : (act :: rest).filter
              (fun a => (extract_dest a).getD "" ≠ "") =
            rest.filter (fun a => (extract_dest a).getD "" ≠ "") := by
          rw [List.filter_cons]
          simp [hd, hne]
        rw [hskip, hfil]
        exact ⟨ihlen, ihget⟩
      · have hcons : per_step_records (act :: rest) =
            (⟨"navigate", d,
              match dictLookup pddl_pretty_map d with
              | some v => v
              | none =>
                String.mk (d.data.map (fun c => if c = '_' then ' ' else c))⟩ :
              StepRecord) :: per_step_records rest := by
          rw [per_step_records_cons, hd]
          dsimp only
          rw [if_neg hne]
        have hfil : (act :: rest).filter
              (fun a => (extract_dest a).getD "" ≠ "") =
            act :: rest.filter (fun a => (extract_dest a).getD "" ≠ "") := by
          rw [List.filter_cons]
          simp [hd, hne]
        rw [hcons, hfil]
        refine ⟨?_, ?_⟩
        · rw [List.length_cons, List.length_cons, ihlen]
        · intro j a hja
          cases j with
          | zero =>
            rw [List.get?_cons_zero, Option.some.injEq] at hja
            subst hja
            exact ⟨d, _, hd, hne, by rw [List.get?_cons_zero], rfl, rfl⟩
          | succ k =>
            rw [List.get?_cons_succ] at hja
            obtain ⟨d2, rec2, g1, g2, g3, g4, g5⟩ := ihget k a hja
            refine ⟨d2, rec2, g1, g2, ?_, g4, g5⟩
            rw [List.get?_cons_succ]
            exact g3

end PDDLWrapper

section Claims

open MockPlanner PDDLWrapper

/-- C1: for every graph and every reachable (start, goal) pair,
`bfs_path` returns a route, and its hop count (length minus one) equals
the minimum hop count over all directed routes from start to goal. -/
theorem claim_C1_bfs_shortest (edges : Graph) (start goal : Loc)
    (h : ∃ p, isRoute edges start goal p) :
    ∃ r, bfs_path edges start goal = some r ∧ isRoute edges start goal r ∧
      ∀ q, isRoute edges start goal q → r.length - 1 ≤ q.length - 1 := by
  obtain ⟨r, hr⟩ := bfs_path_complete edges start goal h
  obtain ⟨hroute, -, hmin⟩ := (bfs_path_spec edges start goal).1 r hr
  refine ⟨r, hr, hroute, fun q hq => ?_⟩
  have := hmin q hq
  omega

/-- Witness for C1 on the two-edge chain a → b → c. -/
theorem claim_C1_witness :
    ∃ r, bfs_path [("a", ["b"]), ("b", ["c"])] "a" "c" = some r ∧
      isRoute [("a", ["b"]), ("b", ["c"])] "a" "c" r ∧
      ∀ q, isRoute [("a", ["b"]), ("b", ["c"])] "a" "c" q →
        r.length - 1 ≤ q.length - 1 :=
  claim_C1_bfs_shortest [("a", ["b"]), ("b", ["c"])] "a" "c"
    ⟨["a", "b", "c"], by decide⟩

/-- C2: every returned route starts at `start`, ends at `goal`, follows a
directed edge at every step and repeats no location; and when
`start = goal` the result is `[start]` for every graph (the edges are
never consulted). -/
theorem claim_C2_route_invariants (edges : Graph) (start goal : Loc)
    (r : List Loc) (h : bfs_path edges start goal = some r) :
    (r.head? = some start ∧ r.getLast? = some goal ∧
      r.Chain' (fun a b => b ∈ getNeighbors edges a) ∧ r.Nodup) ∧
    ∀ edges2 : Graph, bfs_path edges2 start start = some [start] := by
  obtain ⟨⟨h1, h2, h3⟩, hnd, -⟩ := (bfs_path_spec edges start goal).1 r h
  exact ⟨⟨h1, h2, h3, hnd⟩, fun edges2 => by rw [bfs_path, if_pos rfl]⟩

/-- Witness for C2 on the two-edge chain a → b → c. -/
theorem claim_C2_witness :
    ((["a", "b", "c"] : List Loc).head? = some "a" ∧
      (["a", "b", "c"] : List Loc).getLast? = some "c" ∧
      (["a", "b", "c"] : List Loc).Chain'
        (fun a b => b ∈ getNeighbors [("a", ["b"]), ("b", ["c"])] a) ∧
      (["a", "b", "c"] : List Loc).Nodup) ∧
    ∀ edges2 : Graph, bfs_path edges2 "a" "a" = some ["a"] :=
  claim_C2_route_invariants [("a", ["b"]), ("b", ["c"])] "a" "c"
    ["a", "b", "c"] (by simp [bfs_path, bfsLoop, expand, getNeighbors])

/-- C3: `bfs_path` returns `None` exactly when no directed route from
start to goal exists (so never when `start = goal`, since `[start]` is a
route). -/
theorem claim_C3_none_iff_unreachable (edges : Graph) (start goal : Loc) :
    bfs_path edges start goal = none ↔ ¬ ∃ p, isRoute edges start goal p := by
  constructor
  · intro h ⟨p, hp⟩
    exact (bfs_path_spec edges start goal).2 h p hp
  · intro h
    cases hres : bfs_path edges start goal with
    | none => rfl
    | some r =>
      exact absurd ⟨r, ((bfs_path_spec edges start goal).1 r hres).1⟩ h

/-- C4: when the objects block declares robot-tagged objects,
`parse_problem` uses the first one in declaration order; when it
declares none, parsing fails with the no-robot-declared error. -/
theorem claim_C4_first_robot (text : String) (blk : List Char)
    (hblk : findObjectsBlock (strip_comments text).data = some blk) :
    ((parseObjectsBlock blk).robot_names = [] →
      parse_problem_robot text =
        .error "Nenhum robô declarado no bloco :objects") ∧
    ∀ r rs, (parseObjectsBlock blk).robot_names = r :: rs →
      parse_problem_robot text = .ok r := by
  constructor
  · intro h0
    rw [parse_problem_robot, hblk]
    dsimp only
    rw [h0]
  · intro r rs hr
    rw [parse_problem_robot, hblk]
    dsimp only
    rw [hr]

/-- Witness for C4 on a problem text declaring two robots: the first one
is selected. -/
theorem claim_C4_witness :
    parse_problem_robot "(:objects\n r1 r2 - robo\n base - local\n)" =
      .ok "r1" :=
  (claim_C4_first_robot "(:objects\n r1 r2 - robo\n base - local\n)"
    "\n r1 r2 - robo\n base - local\n".data (by decide)).2 "r1" ["r2"]
    (by decide)

/-- C5: a specific unavailable backend request fails; `"auto"` picks the
first available backend in the order fast-downward, unified-planning,
pyperplan, and fails when none is available. -/
theorem claim_C5_backend_selection (req : String) (fd up pp : Bool) :
    (req ≠ "auto" → req ∉ detect_available_planners fd up pp →
      ∃ msg, planner_init req (detect_available_planners fd up pp) =
        .error msg) ∧
    planner_init "auto" (detect_available_planners fd up pp) =
      (if fd then .ok "fast-downward"
       else if up then .ok "unified-planning"
       else if pp then .ok "pyperplan"
       else .error ("No PDDL planner available. Please install one of: " ++
         "Fast Downward, unified-planning, or pyperplan")) := by
  constructor
  · intro hauto hmem
    rw [planner_init, if_neg hauto, if_pos hmem]
    exact ⟨_, rfl⟩
  · cases fd <;> cases up <;> cases pp <;> rfl

/-- Witness for C5: requesting pyperplan while only fast-downward is
available fails. -/
theorem claim_C5_witness :
    ∃ msg, planner_init "pyperplan" (detect_available_planners true false false) =
      .error msg :=
  (claim_C5_backend_selection "pyperplan" true false false).1 (by decide)
    (by decide)

/-- C6: with `--api --verbose-api` and a solvable problem, the verbose
payload carries the full route as waypoints, their humanized labels,
`eta_seconds = (len(route) - 1) * 30`, priority `"normal"` and an empty
constraints list. -/
theorem claim_C6_verbose_payload (args : List String) (robot start goal : Loc)
    (edges : Graph) (path : List Loc)
    (hpath : bfs_path edges start goal = some path)
    (hapi : "--api" ∈ args) (hverb : "--verbose-api" ∈ args) :
    mock_main args robot start goal edges = .apiVerbose
      ⟨"NAVIGATE", goal, humanize_location goal pretty_map, "navigate",
        path, path.map (fun w => humanize_location w pretty_map), "normal",
        [], ((path.length : Int) - 1) * 30⟩ := by
  have hne := bfs_path_some_ne_nil hpath
  have hlen : 1 ≤ path.length := List.length_pos.mpr hne
  have hmax : max 0 ((path.length : Int) - 1) = (path.length : Int) - 1 :=
    max_eq_right (by omega)
  rw [mock_main]
  simp only [hpath, mem_any_eq_true hapi, mem_any_eq_true hverb]
  rw [hmax]
  simp

/-- Witness for C6 on the two-edge chain a → b → c. -/
theorem claim_C6_witness :
    mock_main ["--api", "--verbose-api"] "robo" "a" "c"
        [("a", ["b"]), ("b", ["c"])] = .apiVerbose
      ⟨"NAVIGATE", "c", humanize_location "c" pretty_map, "navigate",
        ["a", "b", "c"],
        (["a", "b", "c"] : List Loc).map (fun w => humanize_location w pretty_map),
        "normal", [],
        (((["a", "b", "c"] : List Loc).length : Int) - 1) * 30⟩ :=
  claim_C6_verbose_payload ["--api", "--verbose-api"] "robo" "a" "c"
    [("a", ["b"]), ("b", ["c"])] ["a", "b", "c"]
    (by simp [bfs_path, bfsLoop, expand, getNeighbors]) (by decide) (by decide)

/-- C7: without `--api`, the output is exactly one
`(navigate <robot> <route[i]> <route[i+1]>)` line per hop, in route
order, so the plan length is the route length minus one. -/
theorem claim_C7_plan_lines (args : List String) (robot start goal : Loc)
    (edges : Graph) (path : List Loc)
    (hpath : bfs_path edges start goal = some path)
    (hapi : "--api" ∉ args) :
    mock_main args robot start goal edges = .plan (planLines robot path) ∧
    (planLines robot path).length = path.length - 1 ∧
    ∀ i a b, path.get? i = some a → path.get? (i + 1) = some b →
      (planLines robot path).get? i =
        some ("(navigate " ++ robot ++ " " ++ a ++ " " ++ b ++ ")") :=
  ⟨mock_main_plan_of_not_api args robot start goal edges path hpath hapi,
    planLines_length robot path,
    fun i a b ha hb => planLines_get? robot path i a b ha hb⟩

/-- Witness for C7 on the two-edge chain a → b → c with no flags. -/
theorem claim_C7_witness :
    mock_main [] "robo" "a" "c" [("a", ["b"]), ("b", ["c"])] =
      .plan (planLines "robo" ["a", "b", "c"]) :=
  (claim_C7_plan_lines [] "robo" "a" "c" [("a", ["b"]), ("b", ["c"])]
    ["a", "b", "c"] (by simp [bfs_path, bfsLoop, expand, getNeighbors])
    (by decide)).1

/-- C8: `humanize_location` returns the override for a token that is a
key of the map, and otherwise the token with underscores replaced by
spaces, unaffected by any entry of any map. -/
theorem claim_C8_humanize (name : String) (m : List (String × String)) :
    ((m.map Prod.fst).Nodup → ∀ v, (name, v) ∈ m →
      humanize_location name m = v) ∧
    (name ∉ m.map Prod.fst →
      humanize_location name m =
        String.mk (name.data.map (fun c => if c = '_' then ' ' else c)) ∧
      ∀ m2, name ∉ m2.map Prod.fst →
        humanize_location name m = humanize_location name m2) := by
  constructor
  · intro hnd v hv
    rw [humanize_location, dictLookup_of_mem hnd hv]
  · intro habs
    constructor
    · rw [humanize_location, dictLookup_of_not_mem habs]
    · intro m2 habs2
      rw [humanize_location, dictLookup_of_not_mem habs,
        humanize_location, dictLookup_of_not_mem habs2]

/-- Witness for C8: an override hit and an override miss on the curated
table. -/
theorem claim_C8_witness :
    humanize_location "corredor_central" pretty_map = "corredor central" :=
  (claim_C8_humanize "corredor_central" pretty_map).1 (by decide)
    "corredor central" (by decide)

/-- C9 (amended): on every plan, mixed or not, the per-step mode emits
exactly one record per action whose destination is extractable and
nonempty, skips every other action, and keeps plan order: the `j`-th
emitted record corresponds to the `j`-th action with an extractable
destination and carries that action's extracted `to` field as its
destination. -/
theorem claim_C9_per_step (plan : List String) :
    (per_step_records plan).length =
      (plan.filter (fun act => (extract_dest act).getD "" ≠ "")).length ∧
    ∀ j act,
      (plan.filter (fun act => (extract_dest act).getD "" ≠ "")).get? j =
        some act →
      ∃ d rec, extract_dest act = some d ∧ d ≠ "" ∧
        (per_step_records plan).get? j = some rec ∧
        rec.destination = d ∧ rec.task = "navigate" :=
  per_step_records_filter_spec plan

/-- Counterexample for C9 as stated: the plan `["(noop)"]` is nonempty
but produces no per-step record, so the mode does not emit one record
per action of every plan. -/
theorem claim_C9_counterexample :
    (per_step_records ["(noop)"]).length ≠ (["(noop)"] : List String).length := by
  decide

/-- Witness for C9 (amended) on a mixed plan: the destination-less
`(noop)` at plan index 0 is skipped, and the navigate action at plan
index 1 yields the record at output index 0 with its `to` field as
destination. -/
theorem claim_C9_witness :
    ∃ d rec, extract_dest "(navigate robo base farmacia)" = some d ∧
      d ≠ "" ∧
      (per_step_records ["(noop)", "(navigate robo base farmacia)"]).get? 0 =
        some rec ∧
      rec.destination = d ∧ rec.task = "navigate" :=
  (claim_C9_per_step ["(noop)", "(navigate robo base farmacia)"]).2 0
    "(navigate robo base farmacia)" (by decide)

/-- C10: `--verbose-api` without `--api` produces the plain PDDL action
lines, exactly as if no flag had been passed. -/
theorem claim_C10_verbose_needs_api (args : List String)
    (robot start goal : Loc) (edges : Graph) (path : List Loc)
    (hpath : bfs_path edges start goal = some path)
    (hverb : "--verbose-api" ∈ args) (hapi : "--api" ∉ args) :
    mock_main args robot start goal edges = .plan (planLines robot path) ∧
    mock_main args robot start goal edges =
      mock_main [] robot start goal edges := by
  have h1 := mock_main_plan_of_not_api args robot start goal edges path hpath hapi
  have h2 := mock_main_plan_of_not_api [] robot start goal edges path hpath
    (by simp)
  exact ⟨h1, by rw [h1, h2]⟩

/-- Witness for C10 on the two-edge chain a → b → c with only
`--verbose-api`. -/
theorem claim_C10_witness :
    mock_main ["--verbose-api"] "robo" "a" "c" [("a", ["b"]), ("b", ["c"])] =
      .plan (planLines "robo" ["a", "b", "c"]) :=
  (claim_C10_verbose_needs_api ["--verbose-api"] "robo" "a" "c"
    [("a", ["b"]), ("b", ["c"])] ["a", "b", "c"]
    (by simp [bfs_path, bfsLoop, expand, getNeighbors]) (by decide)
    (by decide)).1

end Claims
